import Mathlib

/-!
Verification of the causal-discovery core (`src/app/causal_discovery.py`).

The Python class `CausalDiscovery` carries a dataset, a variable list and a
candidate-edge list.  `skeleton_result` drives a conditional-independence
oracle (`pingouin.partial` `_corr`, external to the repository) over every
candidate edge and every conditioning subset of the remaining variables,
records every test in a table, and removes an edge from the surviving set
whenever some test reports a p-value above 0.05.  `causal_direct_collider`
orients edges around a chosen collider from the stored table.

The embedding below mirrors the source line by line: the oracle is an
explicit function argument (the dataset is folded into it, since the source
only ever passes the dataset through to the oracle), p-values are rationals,
and the pandas tables are lists of records.  The literal `0.05` of the source
is written `mkRat 5 100`, the same rational number.
-/

/-- Embedding of `itertools.combinations l r`: all length-`r` subsequences of `l`, in the
order itertools enumerates them (lexicographic by position). -/
def combinations : Nat → List α → List (List α)
  | 0, _ => [[]]
  | _ + 1, [] => []
  | r + 1, x :: xs => (combinations r xs).map (fun c => x :: c) ++ combinations (r + 1) xs

/-- Embedding of `itertools.combinations(vars_lst, 2)` as ordered pairs; the source's
initial surviving-edge list `result = list(combinations(vars_lst, 2))`. -/
def pairCombinations : List α → List (α × α)
  | [] => []
  | x :: xs => xs.map (fun y => (x, y)) ++ pairCombinations xs

/-- Embedding of `list(chain.from_iterable(combinations(other_vars, r) for r in
range(len(other_vars) + 1)))`: the full power set of `l`, enumerated in
increasing subset size starting from the empty set. -/
def all_combinations (l : List α) : List (List α) :=
  (List.range (l.length + 1)).flatMap (fun r => combinations r l)

/-- Embedding of `[var for var in vars_lst if var != x and var != y]`. -/
def other_vars (vars_lst : List String) (x y : String) : List String :=
  vars_lst.filter (fun v => v != x && v != y)

/-- One row of the skeleton table: columns `node_1`, `node_2`, `edges`, `s`,
`p-val` (the `removed` column is filled in afterwards, see `markRemoved`). -/
structure SRow where
  node1 : String
  node2 : String
  edges : String
  s : List String
  pval : ℚ
deriving DecidableEq

/-- The `edges` label `f'\x7bx\x7d - \x7by\x7d'` of the source. -/
def edgeLabel (x y : String) : String := x ++ " - " ++ y

/-- The rows the inner loop appends for one candidate edge: one row per
conditioning subset, in enumeration order, independent of the p-values. -/
def rowsFor (oracle : String → String → List String → ℚ) (vars_lst : List String)
    (e : String × String) : List SRow :=
  (all_combinations (other_vars vars_lst e.1 e.2)).map
    (fun comb => ⟨e.1, e.2, edgeLabel e.1 e.2, comb, oracle e.1 e.2 comb⟩)

/-- One iteration of the inner loop of `skeleton_result`: append the test
record and, when `p_val > 0.05`, remove the edge from the surviving list
(`result.remove((x, y))`, first occurrence, no error when absent —
`List.erase` has exactly these semantics). -/
def stepComb (oracle : String → String → List String → ℚ) (e : String × String)
    (st : List SRow × List (String × String)) (comb : List String) :
    List SRow × List (String × String) :=
  let p := oracle e.1 e.2 comb
  (st.1 ++ [⟨e.1, e.2, edgeLabel e.1 e.2, comb, p⟩],
   if p > mkRat 5 100 then st.2.erase e else st.2)

/-- The body of the outer loop of `skeleton_result` for one candidate edge. -/
def processEdge (oracle : String → String → List String → ℚ) (vars_lst : List String)
    (st : List SRow × List (String × String)) (e : String × String) :
    List SRow × List (String × String) :=
  (all_combinations (other_vars vars_lst e.1 e.2)).foldl (stepComb oracle e) st

/-- The double loop of `skeleton_result`, starting from the empty table and
the complete pair list `combinations(vars_lst, 2)`. -/
def skeletonLoop (oracle : String → String → List String → ℚ) (vars_lst : List String)
    (skeleton : List (String × String)) : List SRow × List (String × String) :=
  skeleton.foldl (processEdge oracle vars_lst) ([], pairCombinations vars_lst)

/-- Embedding of `skeleton_table['removed'] = True` followed by setting `removed = False`
on every row whose `edges` label matches a surviving pair. -/
def markRemoved (result : List (String × String)) (t : List SRow) : List (SRow × Bool) :=
  t.map (fun r => (r, !(result.any (fun p => edgeLabel p.1 p.2 == r.edges))))

/-- Embedding of `pandas.drop_duplicates` (keep the first occurrence), written with an
accumulator of already-seen values. -/
def dedupKeepFirst [DecidableEq α] (seen : List α) : List α → List α
  | [] => []
  | x :: xs => if x ∈ seen then dedupKeepFirst seen xs else x :: dedupKeepFirst (x :: seen) xs

/-- Embedding of `CausalDiscovery.skeleton_result`: returns the marked skeleton table, the
`ind_corr` labels (rows with `p-val < 0.05`, deduplicated by label), and the
final surviving-edge list. -/
def skeleton_result (oracle : String → String → List String → ℚ) (vars_lst : List String)
    (skeleton : List (String × String)) :
    List (SRow × Bool) × List String × List (String × String) :=
  let st := skeletonLoop oracle vars_lst skeleton
  (markRemoved st.2 st.1,
   dedupKeepFirst [] ((st.1.filter (fun r => decide (r.pval < mkRat 5 100))).map SRow.edges),
   st.2)

/-- One row of the causal table: columns `from`, `dir`, `to` (`from` is a Lean
keyword and `to` a reserved token, hence `frm` and `tgt`). -/
structure CRow where
  frm : String
  dir : String
  tgt : String
deriving DecidableEq

/-- The per-node-pair emission of `causal_direct_collider`.  The then-branch
appends `(a -> collider)` and `(b -> collider)` once; the else-branch
re-concatenates the growing `records` list inside the loop over the pair, so
its first edge is appended twice (deduplication later removes the copy).  The
else-branch line `result = result.loc[result['s'].values == 'z', ...]` of the
source rebinds a dead local and has no effect on the output. -/
def emitFor (table : List (SRow × Bool)) (collider : String) (nd : String × String) :
    List (String × String) :=
  let res := table.filter (fun rb =>
    (rb.1.node1 == nd.1 || rb.1.node1 == nd.2) && (rb.1.node2 == nd.1 || rb.1.node2 == nd.2))
  if res.any (fun rb => decide (rb.1.pval > mkRat 5 100) && decide (collider ∉ rb.1.s)) then
    [(nd.1, collider), (nd.2, collider)]
  else
    [(collider, nd.1), (collider, nd.1), (collider, nd.2)]

/-- The conflict-resolution pass: iterate over the rows in order; a row whose
`from` is the collider is dropped when its `to` occurs as a `from` somewhere
in the *current* table (the already-kept prefix plus the not-yet-visited
suffix, the row itself included), exactly as the source's `drop(i, inplace=
True)` loop observes it. -/
def conflictPassAux (collider : String) (kept : List (String × String)) :
    List (String × String) → List (String × String)
  | [] => kept
  | e :: rest =>
    if e.1 = collider ∧ e.2 ∈ (kept ++ e :: rest).map Prod.fst then
      conflictPassAux collider kept rest
    else
      conflictPassAux collider (kept ++ [e]) rest

/-- Embedding of `CausalDiscovery.causal_direct_collider`, acting on an explicit stored
skeleton table: emit per pair, deduplicate keeping first occurrences, run the
conflict pass, then set the direction marker `'->'`. -/
def causal_direct_collider (table : List (SRow × Bool)) (nodes : List (String × String))
    (collider : String) : List CRow :=
  (conflictPassAux collider [] (dedupKeepFirst [] (nodes.flatMap (emitFor table collider)))).map
    (fun e => ⟨e.1, "->", e.2⟩)

/-- The sequence of oracle queries the double loop of `skeleton_result`
issues, in program order. -/
def queriesFor (vars_lst : List String) (e : String × String) :
    List (String × String × List String) :=
  (all_combinations (other_vars vars_lst e.1 e.2)).map (fun comb => (e.1, e.2, comb))

/-- Run the queries of `skeleton_result` against a fallible oracle, in program
order, stopping at the first failure: returns the successfully evaluated
queries and `true` when the whole loop completed (`false` models the Python
exception aborting the call, which discards the local table). -/
def evalTraceAux (oracle : String → String → List String → Option ℚ)
    (acc : List (String × String × List String)) :
    List (String × String × List String) → List (String × String × List String) × Bool
  | [] => (acc, true)
  | q :: rest =>
    match oracle q.1 q.2.1 q.2.2 with
    | some _ => evalTraceAux oracle (acc ++ [q]) rest
    | none => (acc, false)

/-- Behaviour of `skeleton_result` as seen through a fallible oracle: which tests actually
get evaluated, and whether the call completes. -/
def evalTrace (oracle : String → String → List String → Option ℚ) (vars_lst : List String)
    (skeleton : List (String × String)) : List (String × String × List String) × Bool :=
  evalTraceAux oracle [] (skeleton.flatMap (queriesFor vars_lst))

/-- Modelled from the spec: the external conditional-independence oracle
(`pingouin.partial` `_corr`, not part of this repository) computes a p-value
from the dataset and fails when `x` or `y` is not a dataset column — the
spec's `InvalidVariableReference` situation.  `cols` is the dataset's column
list and `f` the p-value computation on valid columns. -/
def colOracle (f : String → String → List String → ℚ) (cols : List String) :
    String → String → List String → Option ℚ :=
  fun x y s => if x ∈ cols ∧ y ∈ cols then some (f x y s) else none

/-- The object state of the Python class: `__init__` stores `data` (folded
into `oracle` here), `vars_lst` and `skeleton`; the `skeleton_table`
attribute does not exist until `skeleton_result` assigns it (`none` models
the absent attribute, whose access raises `AttributeError`). -/
structure CausalDiscovery where
  oracle : String → String → List String → ℚ
  vars_lst : List String
  skeleton : List (String × String)
  skeleton_table : Option (List (SRow × Bool))

/-- Embedding of `CausalDiscovery.__init__`. -/
def CausalDiscovery.make (oracle : String → String → List String → ℚ)
    (vars_lst : List String) (skeleton : List (String × String)) : CausalDiscovery :=
  ⟨oracle, vars_lst, skeleton, none⟩

/-- Method form of `skeleton_result`: stores the marked table on the object and
returns the triple. -/
def CausalDiscovery.runSkeleton (c : CausalDiscovery) :
    CausalDiscovery × (List (SRow × Bool) × List String × List (String × String)) :=
  let r := skeleton_result c.oracle c.vars_lst c.skeleton
  ({c with skeleton_table := some r.1}, r)

/-- Method form of `causal_direct_collider`: reads `self.skeleton_table`;
`none` (attribute never assigned) models the `AttributeError`. -/
def CausalDiscovery.runCollider (c : CausalDiscovery) (nodes : List (String × String))
    (collider : String) : Option (List CRow) :=
  c.skeleton_table.map (fun t => causal_direct_collider t nodes collider)

/-! ### Basic facts about the subset enumerators -/

theorem length_combinations : ∀ (r : Nat) (l : List α),
    (combinations r l).length = l.length.choose r
  | 0, l => by simp [combinations]
  | r + 1, [] => by simp [combinations]
  | r + 1, x :: xs => by
    simp [combinations, length_combinations r xs, length_combinations (r + 1) xs,
      Nat.choose_succ_succ, Nat.add_comm]

theorem mem_combinations : ∀ (r : Nat) (l c : List α),
    c ∈ combinations r l ↔ c.Sublist l ∧ c.length = r
  | 0, l, c => by
    constructor
    · intro h
      simp only [combinations, List.mem_singleton] at h
      subst h
      exact ⟨List.nil_sublist l, rfl⟩
    · rintro ⟨-, h⟩
      rw [List.length_eq_zero] at h
      simp [combinations, h]
  | r + 1, [], c => by
    constructor
    · intro h
      simp [combinations] at h
    · rintro ⟨hs, hl⟩
      rw [List.sublist_nil] at hs
      subst hs
      simp at hl
  | r + 1, x :: xs, c => by
    simp only [combinations, List.mem_append, List.mem_map,
      mem_combinations r xs, mem_combinations (r + 1) xs]
    constructor
    · rintro (⟨c', ⟨hs, hl⟩, rfl⟩ | ⟨hs, hl⟩)
      · exact ⟨List.cons_sublist_cons.mpr hs, by simp [hl]⟩
      · exact ⟨hs.trans (List.sublist_cons_self x xs), hl⟩
    · rintro ⟨hs, hl⟩
      rcases List.sublist_cons_iff.mp hs with h | ⟨c', rfl, hc'⟩
      · exact Or.inr ⟨h, hl⟩
      · exact Or.inl ⟨c', ⟨hc', by simpa using hl⟩, rfl⟩

theorem nodup_combinations : ∀ (r : Nat) (l : List α), l.Nodup → (combinations r l).Nodup
  | 0, l, _ => by simp [combinations]
  | r + 1, [], _ => by simp [combinations]
  | r + 1, x :: xs, h => by
    rcases List.nodup_cons.mp h with ⟨hx, hxs⟩
    refine List.Nodup.append ?_ (nodup_combinations (r + 1) xs hxs) ?_
    · exact (nodup_combinations r xs hxs).map (fun a b hab => by simpa using hab)
    · intro c hc1 hc2
      rcases List.mem_map.mp hc1 with ⟨c', -, rfl⟩
      have hsub : (x :: c').Sublist xs := (mem_combinations _ _ _ |>.mp hc2).1
      exact hx (hsub.subset (List.mem_cons_self x c'))

theorem list_sum_map_range (f : ℕ → ℕ) : ∀ n, ((List.range n).map f).sum = ∑ i ∈ Finset.range n, f i
  | 0 => by simp
  | n + 1 => by
    rw [List.range_succ, Finset.sum_range_succ]
    simp [list_sum_map_range f n]

theorem length_all_combinations (l : List α) :
    (all_combinations l).length = 2 ^ l.length := by
  rw [all_combinations, List.length_flatMap]
  have : ∀ r, (List.length ∘ fun r => combinations r l) r = l.length.choose r := by
    intro r
    simp [length_combinations]
  rw [List.map_congr_left (fun r _ => this r), list_sum_map_range, Nat.sum_range_choose]

theorem mem_all_combinations (l c : List α) :
    c ∈ all_combinations l ↔ c.Sublist l := by
  simp only [all_combinations, List.mem_flatMap, List.mem_range, mem_combinations]
  constructor
  · rintro ⟨r, -, hs, -⟩
    exact hs
  · intro hs
    exact ⟨c.length, Nat.lt_succ_of_le hs.length_le, hs, rfl⟩

theorem nodup_all_combinations (l : List α) (h : l.Nodup) :
    (all_combinations l).Nodup := by
  rw [all_combinations, List.flatMap_def, List.nodup_flatten]
  constructor
  · intro t ht
    rcases List.mem_map.mp ht with ⟨r, -, rfl⟩
    exact nodup_combinations r l h
  · rw [List.pairwise_map]
    refine (List.pairwise_lt_range _).imp ?_
    intro r1 r2 hlt c hc1 hc2
    have h1 := (mem_combinations _ _ _ |>.mp hc1).2
    have h2 := (mem_combinations _ _ _ |>.mp hc2).2
    exact absurd (h1.symm.trans h2) (Nat.ne_of_lt hlt)

theorem pairwise_le_of_forall_eq (r : ℕ) : ∀ (t : List ℕ), (∀ a ∈ t, a = r) → t.Pairwise (· ≤ ·)
  | [], _ => .nil
  | a :: t, h => by
    refine List.Pairwise.cons ?_
      (pairwise_le_of_forall_eq r t fun b hb => h b (List.mem_cons_of_mem a hb))
    intro b hb
    rw [h a (List.mem_cons_self a t), h b (List.mem_cons_of_mem a hb)]

theorem pairwise_length_all_combinations (l : List α) :
    ((all_combinations l).map List.length).Pairwise (· ≤ ·) := by
  rw [all_combinations, List.map_flatMap]
  rw [List.flatMap_def, List.pairwise_flatten]
  constructor
  · intro t ht
    rcases List.mem_map.mp ht with ⟨r, -, rfl⟩
    refine pairwise_le_of_forall_eq r _ ?_
    intro a ha
    rcases List.mem_map.mp ha with ⟨c, hc, rfl⟩
    exact (mem_combinations _ _ _ |>.mp hc).2
  · rw [List.pairwise_map]
    refine (List.pairwise_lt_range _).imp ?_
    intro r1 r2 hlt a ha b hb
    rcases List.mem_map.mp ha with ⟨c1, hc1, rfl⟩
    rcases List.mem_map.mp hb with ⟨c2, hc2, rfl⟩
    rw [(mem_combinations _ _ _ |>.mp hc1).2, (mem_combinations _ _ _ |>.mp hc2).2]
    exact Nat.le_of_lt hlt

theorem all_combinations_eq_cons (l : List α) :
    ∃ t, all_combinations l = [] :: t := by
  rw [all_combinations, List.range_succ_eq_map, List.flatMap_cons]
  have h0 : combinations 0 l = [[]] := by simp [combinations]
  rw [h0]
  exact ⟨_, rfl⟩

theorem head_all_combinations (l : List α) :
    (all_combinations l).head? = some [] := by
  rcases all_combinations_eq_cons l with ⟨t, ht⟩
  rw [ht]
  rfl

theorem nil_mem_all_combinations (l : List α) : [] ∈ all_combinations l := by
  rcases all_combinations_eq_cons l with ⟨t, ht⟩
  rw [ht]
  exact List.mem_cons_self _ _

/-! ### Facts about the initial pair list and the covariate list -/

theorem endpoints_mem_of_mem_pairCombinations :
    ∀ {l : List α} {x y : α}, (x, y) ∈ pairCombinations l → x ∈ l ∧ y ∈ l
  | a :: t, x, y, h => by
    simp only [pairCombinations, List.mem_append, List.mem_map] at h
    rcases h with ⟨b, hb, he⟩ | h
    · cases he
      exact ⟨List.mem_cons_self a t, List.mem_cons_of_mem a hb⟩
    · have := endpoints_mem_of_mem_pairCombinations h
      exact ⟨List.mem_cons_of_mem a this.1, List.mem_cons_of_mem a this.2⟩

theorem nodup_pairCombinations : ∀ {l : List α}, l.Nodup → (pairCombinations l).Nodup
  | [], _ => List.Pairwise.nil
  | a :: t, h => by
    rcases List.nodup_cons.mp h with ⟨ha, ht⟩
    refine List.Nodup.append (ht.map ?_) (nodup_pairCombinations ht) ?_
    · intro b c hbc
      simpa using hbc
    · intro p hp1 hp2
      rcases List.mem_map.mp hp1 with ⟨b, -, rfl⟩
      exact ha (endpoints_mem_of_mem_pairCombinations hp2).1

theorem pair_mem_pairCombinations :
    ∀ {l : List α} {x y : α}, x ∈ l → y ∈ l → x ≠ y →
      (x, y) ∈ pairCombinations l ∨ (y, x) ∈ pairCombinations l
  | a :: t, x, y, hx, hy, hne => by
    rcases List.mem_cons.mp hx with hxa | hxt
    · subst hxa
      have hyt : y ∈ t := (List.mem_cons.mp hy).resolve_left fun h => hne h.symm
      refine Or.inl ?_
      simp only [pairCombinations, List.mem_append, List.mem_map]
      exact Or.inl ⟨y, hyt, rfl⟩
    · rcases List.mem_cons.mp hy with hya | hyt
      · subst hya
        refine Or.inr ?_
        simp only [pairCombinations, List.mem_append, List.mem_map]
        exact Or.inl ⟨x, hxt, rfl⟩
      · rcases pair_mem_pairCombinations hxt hyt hne with h | h
        · refine Or.inl ?_
          simp only [pairCombinations, List.mem_append]
          exact Or.inr h
        · refine Or.inr ?_
          simp only [pairCombinations, List.mem_append]
          exact Or.inr h

theorem mem_other_vars {vars_lst : List String} {x y v : String} :
    v ∈ other_vars vars_lst x y ↔ v ∈ vars_lst ∧ v ≠ x ∧ v ≠ y := by
  simp [other_vars, List.mem_filter]

theorem length_other_vars {vars_lst : List String} {x y : String} (hn : vars_lst.Nodup)
    (hx : x ∈ vars_lst) (hy : y ∈ vars_lst) (hxy : x ≠ y) :
    (other_vars vars_lst x y).length = vars_lst.length - 2 := by
  have hperm := List.filter_append_perm (fun v => v != x && v != y) vars_lst
  have hlen : (other_vars vars_lst x y).length
      + (vars_lst.filter (fun v => !(v != x && v != y))).length = vars_lst.length := by
    have := hperm.length_eq
    simpa [other_vars] using this
  have h2 : (vars_lst.filter (fun v => !(v != x && v != y))).length = 2 := by
    set l2 := vars_lst.filter (fun v => !(v != x && v != y)) with hl2
    have hmem : ∀ v, v ∈ l2 ↔ v ∈ vars_lst ∧ (v = x ∨ v = y) := by
      intro v
      constructor
      · intro hv
        rw [hl2, List.mem_filter] at hv
        refine ⟨hv.1, ?_⟩
        have hb := hv.2
        by_cases h1 : v = x
        · exact Or.inl h1
        · by_cases h2 : v = y
          · exact Or.inr h2
          · simp [h1, h2] at hb
      · rintro ⟨hv, h⟩
        rw [hl2, List.mem_filter]
        refine ⟨hv, ?_⟩
        rcases h with rfl | rfl <;> simp
    have hsub : l2 ⊆ [x, y] := by
      intro v hv
      rcases (hmem v).mp hv with ⟨-, rfl | rfl⟩ <;> simp
    have hnd : l2.Nodup := hn.filter _
    have hle : l2.length ≤ 2 := by
      simpa using (hnd.subperm hsub).length_le
    have hxl : x ∈ l2 := (hmem x).mpr ⟨hx, Or.inl rfl⟩
    have hyl : y ∈ l2 := (hmem y).mpr ⟨hy, Or.inr rfl⟩
    have hsub2 : [x, y] ⊆ l2 := by
      intro v hv
      rcases List.mem_cons.mp hv with rfl | hv2
      · exact hxl
      · rcases List.mem_cons.mp hv2 with rfl | hv3
        · exact hyl
        · simp at hv3
    have hnd2 : ([x, y] : List String).Nodup := by simp [hxy]
    have hge : 2 ≤ l2.length := by
      simpa using (hnd2.subperm hsub2).length_le
    omega
  omega

/-! ### Structure of the skeleton loop -/

theorem foldl_stepComb_fst (o : String → String → List String → ℚ) (e : String × String) :
    ∀ (combs : List (List String)) (t : List SRow) (r : List (String × String)),
      ((combs.foldl (stepComb o e) (t, r)).1 =
        t ++ combs.map (fun comb => ⟨e.1, e.2, edgeLabel e.1 e.2, comb, o e.1 e.2 comb⟩))
  | [], t, r => by simp
  | c :: cs, t, r => by
    rw [List.foldl_cons, stepComb]
    rw [foldl_stepComb_fst o e cs]
    simp

theorem processEdge_fst (o : String → String → List String → ℚ) (vars_lst : List String)
    (st : List SRow × List (String × String)) (e : String × String) :
    (processEdge o vars_lst st e).1 = st.1 ++ rowsFor o vars_lst e := by
  rw [processEdge, rowsFor]
  exact foldl_stepComb_fst o e _ st.1 st.2

theorem foldl_processEdge_fst (o : String → String → List String → ℚ) (vars_lst : List String) :
    ∀ (skel : List (String × String)) (st : List SRow × List (String × String)),
      (skel.foldl (processEdge o vars_lst) st).1 = st.1 ++ skel.flatMap (rowsFor o vars_lst)
  | [], st => by simp
  | e :: es, st => by
    rw [List.foldl_cons, foldl_processEdge_fst o vars_lst es, processEdge_fst]
    simp

theorem skeleton_table_eq (o : String → String → List String → ℚ) (vars_lst : List String)
    (skel : List (String × String)) :
    (skeletonLoop o vars_lst skel).1 = skel.flatMap (rowsFor o vars_lst) := by
  rw [skeletonLoop, foldl_processEdge_fst]
  rfl

theorem mem_rowsFor {o : String → String → List String → ℚ} {vars_lst : List String}
    {e : String × String} {r : SRow} :
    r ∈ rowsFor o vars_lst e ↔
      ∃ c ∈ all_combinations (other_vars vars_lst e.1 e.2),
        r = ⟨e.1, e.2, edgeLabel e.1 e.2, c, o e.1 e.2 c⟩ := by
  simp only [rowsFor, List.mem_map]
  constructor
  · rintro ⟨c, hc, rfl⟩
    exact ⟨c, hc, rfl⟩
  · rintro ⟨c, hc, rfl⟩
    exact ⟨c, hc, rfl⟩

theorem foldl_stepComb_snd (o : String → String → List String → ℚ) (e : String × String) :
    ∀ (combs : List (List String)) (t : List SRow) (r : List (String × String)),
      (combs.foldl (stepComb o e) (t, r)).2 =
        combs.foldl (fun r2 c => if o e.1 e.2 c > mkRat 5 100 then r2.erase e else r2) r
  | [], _, _ => rfl
  | c :: cs, t, r => by
    rw [List.foldl_cons, List.foldl_cons, stepComb]
    by_cases h : o e.1 e.2 c > mkRat 5 100
    · rw [if_pos h]
      exact foldl_stepComb_snd o e cs _ _
    · rw [if_neg h]
      exact foldl_stepComb_snd o e cs _ _

theorem eraseFold_sublist (o : String → String → List String → ℚ) (e : String × String) :
    ∀ (combs : List (List String)) (r : List (String × String)),
      (combs.foldl (fun r2 c => if o e.1 e.2 c > mkRat 5 100 then r2.erase e else r2) r).Sublist r
  | [], _ => List.Sublist.refl _
  | c :: cs, r => by
    rw [List.foldl_cons]
    by_cases h : o e.1 e.2 c > mkRat 5 100
    · rw [if_pos h]
      exact (eraseFold_sublist o e cs _).trans (r.erase_sublist e)
    · rw [if_neg h]
      exact eraseFold_sublist o e cs r

theorem mem_eraseFold (o : String → String → List String → ℚ) (e : String × String) :
    ∀ (combs : List (List String)) (r : List (String × String)) (_ : r.Nodup)
      (p : String × String),
      p ∈ combs.foldl (fun r2 c => if o e.1 e.2 c > mkRat 5 100 then r2.erase e else r2) r ↔
        p ∈ r ∧ ¬(p = e ∧ ∃ c ∈ combs, o e.1 e.2 c > mkRat 5 100)
  | [], r, _, p => by simp
  | c :: cs, r, hr, p => by
    rw [List.foldl_cons]
    by_cases h : o e.1 e.2 c > mkRat 5 100
    · rw [if_pos h, mem_eraseFold o e cs _ (hr.erase e) p, hr.mem_erase_iff]
      constructor
      · rintro ⟨⟨hpe, hp⟩, -⟩
        exact ⟨hp, fun hh => hpe hh.1⟩
      · rintro ⟨hp, hn⟩
        have hpe : p ≠ e := fun hh => hn ⟨hh, c, List.mem_cons_self c cs, h⟩
        exact ⟨⟨hpe, hp⟩, fun hh => hpe hh.1⟩
    · rw [if_neg h, mem_eraseFold o e cs r hr p]
      constructor
      · rintro ⟨hp, hn⟩
        refine ⟨hp, ?_⟩
        rintro ⟨rfl, c2, hc2, hgt⟩
        rcases List.mem_cons.mp hc2 with rfl | hc2
        · exact h hgt
        · exact hn ⟨rfl, c2, hc2, hgt⟩
      · rintro ⟨hp, hn⟩
        refine ⟨hp, ?_⟩
        rintro ⟨rfl, c2, hc2, hgt⟩
        exact hn ⟨rfl, c2, List.mem_cons_of_mem c hc2, hgt⟩

theorem processEdge_snd (o : String → String → List String → ℚ) (vars_lst : List String)
    (st : List SRow × List (String × String)) (e : String × String) :
    (processEdge o vars_lst st e).2 =
      (all_combinations (other_vars vars_lst e.1 e.2)).foldl
        (fun r2 c => if o e.1 e.2 c > mkRat 5 100 then r2.erase e else r2) st.2 := by
  rw [processEdge]
  exact foldl_stepComb_snd o e _ st.1 st.2

theorem mem_foldl_processEdge_snd (o : String → String → List String → ℚ)
    (vars_lst : List String) :
    ∀ (skel : List (String × String)) (st : List SRow × List (String × String))
      (_ : st.2.Nodup) (p : String × String),
      p ∈ (skel.foldl (processEdge o vars_lst) st).2 ↔
        p ∈ st.2 ∧ ∀ e ∈ skel, ¬(p = e ∧
          ∃ c ∈ all_combinations (other_vars vars_lst e.1 e.2), o e.1 e.2 c > mkRat 5 100)
  | [], st, _, p => by simp
  | e :: es, st, hn, p => by
    rw [List.foldl_cons]
    have hn2 : (processEdge o vars_lst st e).2.Nodup := by
      rw [processEdge_snd]
      exact hn.sublist (eraseFold_sublist o e _ st.2)
    rw [mem_foldl_processEdge_snd o vars_lst es _ hn2 p, processEdge_snd,
      mem_eraseFold o e _ st.2 hn p]
    constructor
    · rintro ⟨⟨hp, hne⟩, hes⟩
      refine ⟨hp, ?_⟩
      intro e2 he2
      rcases List.mem_cons.mp he2 with rfl | he2
      · exact hne
      · exact hes e2 he2
    · rintro ⟨hp, hall⟩
      exact ⟨⟨hp, hall e (List.mem_cons_self e es)⟩,
        fun e2 he2 => hall e2 (List.mem_cons_of_mem e he2)⟩

theorem skeleton_result_snd_sublist (o : String → String → List String → ℚ)
    (vars_lst : List String) :
    ∀ (skel : List (String × String)) (st : List SRow × List (String × String)),
      ((skel.foldl (processEdge o vars_lst) st).2).Sublist st.2
  | [], _ => List.Sublist.refl _
  | e :: es, st => by
    rw [List.foldl_cons]
    refine (skeleton_result_snd_sublist o vars_lst es _).trans ?_
    rw [processEdge_snd]
    exact eraseFold_sublist o e _ st.2

theorem mem_surviving (o : String → String → List String → ℚ) (vars_lst : List String)
    (skel : List (String × String)) (hn : vars_lst.Nodup) (p : String × String) :
    p ∈ (skeleton_result o vars_lst skel).2.2 ↔
      p ∈ pairCombinations vars_lst ∧
        ¬(p ∈ skel ∧ ∃ c ∈ all_combinations (other_vars vars_lst p.1 p.2),
          o p.1 p.2 c > mkRat 5 100) := by
  have hinit : (pairCombinations vars_lst).Nodup := nodup_pairCombinations hn
  have h := mem_foldl_processEdge_snd o vars_lst skel ([], pairCombinations vars_lst) hinit p
  rw [skeleton_result]
  simp only [skeletonLoop] at h ⊢
  rw [h]
  constructor
  · rintro ⟨hp, hall⟩
    refine ⟨hp, ?_⟩
    rintro ⟨hskel, hbad⟩
    exact hall p hskel ⟨rfl, hbad⟩
  · rintro ⟨hp, hn2⟩
    refine ⟨hp, ?_⟩
    rintro e he ⟨rfl, hbad⟩
    exact hn2 ⟨he, hbad⟩

/-! ### Facts about deduplication and the conflict pass -/

theorem mem_dedupKeepFirst [DecidableEq α] :
    ∀ (seen l : List α) (a : α), a ∈ dedupKeepFirst seen l ↔ a ∈ l ∧ a ∉ seen
  | _, [], a => by simp [dedupKeepFirst]
  | seen, x :: xs, a => by
    rw [dedupKeepFirst]
    by_cases hx : x ∈ seen
    · rw [if_pos hx, mem_dedupKeepFirst seen xs a]
      constructor
      · rintro ⟨ha, hs⟩
        exact ⟨List.mem_cons_of_mem x ha, hs⟩
      · rintro ⟨ha, hs⟩
        rcases List.mem_cons.mp ha with rfl | ha
        · exact absurd hx hs
        · exact ⟨ha, hs⟩
    · rw [if_neg hx]
      constructor
      · intro ha
        rcases List.mem_cons.mp ha with rfl | ha
        · exact ⟨List.mem_cons_self a xs, hx⟩
        · rcases (mem_dedupKeepFirst (x :: seen) xs a).mp ha with ⟨h1, h2⟩
          exact ⟨List.mem_cons_of_mem x h1, fun hs => h2 (List.mem_cons_of_mem x hs)⟩
      · rintro ⟨ha, hs⟩
        rcases List.mem_cons.mp ha with rfl | ha
        · exact List.mem_cons_self a _
        · by_cases hax : a = x
          · subst hax
            exact List.mem_cons_self a _
          · refine List.mem_cons_of_mem x ((mem_dedupKeepFirst (x :: seen) xs a).mpr ⟨ha, ?_⟩)
            intro hmem
            rcases List.mem_cons.mp hmem with h | h
            · exact hax h
            · exact hs h

theorem nodup_dedupKeepFirst [DecidableEq α] :
    ∀ (seen l : List α), (dedupKeepFirst seen l).Nodup
  | _, [] => List.Pairwise.nil
  | seen, x :: xs => by
    rw [dedupKeepFirst]
    by_cases hx : x ∈ seen
    · rw [if_pos hx]
      exact nodup_dedupKeepFirst seen xs
    · rw [if_neg hx]
      refine List.nodup_cons.mpr ⟨?_, nodup_dedupKeepFirst (x :: seen) xs⟩
      intro hmem
      exact ((mem_dedupKeepFirst (x :: seen) xs x).mp hmem).2 (List.mem_cons_self x seen)

theorem conflictPassAux_subset (collider : String) :
    ∀ (rest kept : List (String × String)) (x : String × String),
      x ∈ conflictPassAux collider kept rest → x ∈ kept ∨ x ∈ rest
  | [], kept, x, h => Or.inl h
  | e :: rest, kept, x, h => by
    rw [conflictPassAux] at h
    split at h
    · rcases conflictPassAux_subset collider rest kept x h with h2 | h2
      · exact Or.inl h2
      · exact Or.inr (List.mem_cons_of_mem e h2)
    · rcases conflictPassAux_subset collider rest (kept ++ [e]) x h with h2 | h2
      · rcases List.mem_append.mp h2 with h3 | h3
        · exact Or.inl h3
        · exact Or.inr (List.mem_cons.mpr (Or.inl (List.mem_singleton.mp h3)))
      · exact Or.inr (List.mem_cons_of_mem e h2)

theorem conflictPassAux_keep_frm_ne (collider : String) :
    ∀ (rest kept : List (String × String)) (x : String × String),
      x.1 ≠ collider → (x ∈ kept ∨ x ∈ rest) → x ∈ conflictPassAux collider kept rest
  | [], kept, x, _, h => h.resolve_right (by simp)
  | e :: rest, kept, x, hne, h => by
    rw [conflictPassAux]
    split
    · rename_i hcond
      refine conflictPassAux_keep_frm_ne collider rest kept x hne ?_
      rcases h with h | h
      · exact Or.inl h
      · rcases List.mem_cons.mp h with rfl | h
        · exact absurd hcond.1 hne
        · exact Or.inr h
    · refine conflictPassAux_keep_frm_ne collider rest (kept ++ [e]) x hne ?_
      rcases h with h | h
      · exact Or.inl (List.mem_append.mpr (Or.inl h))
      · rcases List.mem_cons.mp h with rfl | h
        · exact Or.inl (List.mem_append.mpr (Or.inr (List.mem_singleton.mpr rfl)))
        · exact Or.inr h

theorem conflictPassAux_all_inward (collider : String) :
    ∀ (rest kept : List (String × String)),
      (∀ x ∈ kept, x.1 = collider) → (∀ x ∈ rest, x.1 = collider ∧ x.2 ≠ collider) →
      conflictPassAux collider kept rest = kept ++ rest
  | [], kept, _, _ => by simp [conflictPassAux]
  | e :: rest, kept, hk, hr => by
    rw [conflictPassAux]
    have hcond : ¬(e.1 = collider ∧ e.2 ∈ (kept ++ e :: rest).map Prod.fst) := by
      rintro ⟨-, hmem⟩
      rcases List.mem_map.mp hmem with ⟨w, hw, hwf⟩
      have hwc : w.1 = collider := by
        rcases List.mem_append.mp hw with h | h
        · exact hk w h
        · rcases List.mem_cons.mp h with rfl | h
          · exact (hr w (List.mem_cons_self w rest)).1
          · exact (hr w (List.mem_cons_of_mem e h)).1
      exact (hr e (List.mem_cons_self e rest)).2 (hwf ▸ hwc ▸ rfl)
    rw [if_neg hcond]
    rw [conflictPassAux_all_inward collider rest (kept ++ [e]) ?_ ?_]
    · simp
    · intro x hx
      rcases List.mem_append.mp hx with h | h
      · exact hk x h
      · rw [List.mem_singleton.mp h]
        exact (hr e (List.mem_cons_self e rest)).1
    · exact fun x hx => hr x (List.mem_cons_of_mem e hx)

theorem conflictPassAux_drop (collider : String) :
    ∀ (rest kept : List (String × String)) (e : String × String),
      e ∈ rest → e ∉ kept → (kept ++ rest).Nodup → e.1 = collider →
      e.2 ∈ (kept ++ rest).map Prod.fst →
      e ∉ conflictPassAux collider kept rest
  | [], _, e, he, _, _, _, _ => absurd he (by simp)
  | r :: rest, kept, e, he, hek, hnd, hfrm, hto => by
    rcases List.mem_cons.mp he with rfl | he2
    · rw [conflictPassAux, if_pos ⟨hfrm, hto⟩]
      intro hmem
      rcases conflictPassAux_subset collider rest kept e hmem with h | h
      · exact hek h
      · have : e ∉ rest := by
          have h2 := (List.nodup_append.mp hnd).2.1
          exact (List.nodup_cons.mp h2).1
        exact this h
    · have hee : e ≠ r := by
        rintro rfl
        have h2 := (List.nodup_append.mp hnd).2.1
        exact (List.nodup_cons.mp h2).1 he2
      rw [conflictPassAux]
      split
      · rename_i hcond
        refine conflictPassAux_drop collider rest kept e he2 hek ?_ hfrm ?_
        · refine hnd.sublist ?_
          exact (List.append_sublist_append_left kept).mpr (List.sublist_cons_self r rest)
        · rcases List.mem_map.mp hto with ⟨w, hw, hwf⟩
          by_cases hwr : w = r
          · subst hwr
            refine List.mem_map.mpr ⟨e, List.mem_append.mpr (Or.inr he2), ?_⟩
            rw [hfrm, ← hwf, hcond.1]
          · refine List.mem_map.mpr ⟨w, ?_, hwf⟩
            rcases List.mem_append.mp hw with h | h
            · exact List.mem_append.mpr (Or.inl h)
            · rcases List.mem_cons.mp h with h2 | h2
              · exact absurd h2 hwr
              · exact List.mem_append.mpr (Or.inr h2)
      · refine conflictPassAux_drop collider rest (kept ++ [r]) e he2 ?_ ?_ hfrm ?_
        · intro hmem
          rcases List.mem_append.mp hmem with h | h
          · exact hek h
          · exact hee (List.mem_singleton.mp h)
        · rw [List.append_cons] at hnd
          exact hnd
        · rw [List.append_cons] at hto
          exact hto

/-! ### Table-level helpers -/

theorem skeleton_result_fst (o : String → String → List String → ℚ) (vars_lst : List String)
    (skel : List (String × String)) :
    (skeleton_result o vars_lst skel).1 =
      markRemoved (skeletonLoop o vars_lst skel).2 (skeletonLoop o vars_lst skel).1 := rfl

theorem skeleton_result_surv (o : String → String → List String → ℚ) (vars_lst : List String)
    (skel : List (String × String)) :
    (skeleton_result o vars_lst skel).2.2 = (skeletonLoop o vars_lst skel).2 := rfl

theorem markRemoved_map_fst (res : List (String × String)) (t : List SRow) :
    (markRemoved res t).map Prod.fst = t := by
  simp [markRemoved, Function.comp_def]

theorem mem_markRemoved {res : List (String × String)} {t : List SRow} {rb : SRow × Bool} :
    rb ∈ markRemoved res t ↔
      rb.1 ∈ t ∧ rb.2 = !(res.any (fun p => edgeLabel p.1 p.2 == rb.1.edges)) := by
  simp only [markRemoved, List.mem_map]
  constructor
  · rintro ⟨r, hr, rfl⟩
    exact ⟨hr, rfl⟩
  · rintro ⟨h1, h2⟩
    exact ⟨rb.1, h1, by rw [← h2]⟩

theorem removed_flag_true_iff (res : List (String × String)) (lbl : String) :
    (!(res.any (fun p => edgeLabel p.1 p.2 == lbl))) = true ↔
      ¬∃ p ∈ res, edgeLabel p.1 p.2 = lbl := by
  simp

theorem surviving_subset_pairCombinations (o : String → String → List String → ℚ)
    (vars_lst : List String) (skel : List (String × String)) {p : String × String}
    (hp : p ∈ (skeleton_result o vars_lst skel).2.2) : p ∈ pairCombinations vars_lst := by
  rw [skeleton_result_surv, skeletonLoop] at hp
  exact (skeleton_result_snd_sublist o vars_lst skel _).subset hp

/-! ### Claims -/

/-- C1: for a candidate edge `(x, y)` with `x` and `y` distinct members of the
variable list, `skeleton_result` appends for that edge exactly
`2 ^ (|variables| - 2)` test records — the table is the concatenation of the
per-edge blocks, the block for `(x, y)` carries one record per subset of the
other variables (each subset exactly once, `all_combinations` being
duplicate-free and ranging over precisely the sublists), the conditioning
sets appear in nondecreasing-size order starting with the empty set, and the
block's shape is independent of the oracle's p-values, so every subset is
still recorded after an earlier subset yields p-value > 0.05. -/
theorem skeleton_completeness (o : String → String → List String → ℚ)
    (vars_lst : List String) (skel : List (String × String)) (x y : String)
    (hn : vars_lst.Nodup) (hx : x ∈ vars_lst) (hy : y ∈ vars_lst) (hxy : x ≠ y)
    (hmem : (x, y) ∈ skel) :
    (skeleton_result o vars_lst skel).1.map Prod.fst = skel.flatMap (rowsFor o vars_lst)
    ∧ (rowsFor o vars_lst (x, y)).length = 2 ^ (vars_lst.length - 2)
    ∧ (rowsFor o vars_lst (x, y)).map SRow.s = all_combinations (other_vars vars_lst x y)
    ∧ ((rowsFor o vars_lst (x, y)).map (fun r => r.s.length)).Pairwise (· ≤ ·)
    ∧ ((rowsFor o vars_lst (x, y)).map SRow.s).head? = some []
    ∧ (all_combinations (other_vars vars_lst x y)).Nodup
    ∧ (∀ c : List String,
        c ∈ all_combinations (other_vars vars_lst x y) ↔ c.Sublist (other_vars vars_lst x y)) := by
  have hs : (rowsFor o vars_lst (x, y)).map SRow.s = all_combinations (other_vars vars_lst x y) := by
    simp [rowsFor, Function.comp_def]
  refine ⟨?_, ?_, hs, ?_, ?_, ?_, ?_⟩
  · rw [skeleton_result_fst, markRemoved_map_fst, skeleton_table_eq]
  · rw [rowsFor, List.length_map, length_all_combinations, length_other_vars hn hx hy hxy]
  · have : (rowsFor o vars_lst (x, y)).map (fun r => r.s.length) =
        ((rowsFor o vars_lst (x, y)).map SRow.s).map List.length := by
      simp
    rw [this, hs]
    exact pairwise_length_all_combinations _
  · rw [hs, head_all_combinations]
  · exact nodup_all_combinations _ (hn.filter _)
  · exact fun c => mem_all_combinations _ c

/-- Witness for C1 at `vars = [a, b, c]`, `skeleton = [(a, b)]`. -/
theorem skeleton_completeness_witness :
    (["a", "b", "c"] : List String).Nodup
    ∧ ("a" : String) ≠ "b"
    ∧ (("a", "b") ∈ ([("a", "b")] : List (String × String)))
    ∧ ((rowsFor (fun _ _ _ => mkRat 1 10) ["a", "b", "c"] ("a", "b")).length =
        2 ^ ((["a", "b", "c"] : List String).length - 2)
      ∧ ((rowsFor (fun _ _ _ => mkRat 1 10) ["a", "b", "c"] ("a", "b")).map SRow.s).head? =
        some []) := by
  refine ⟨by decide, by decide, by decide, ?_⟩
  have h := skeleton_completeness (fun _ _ _ => mkRat 1 10) ["a", "b", "c"] [("a", "b")]
    "a" "b" (by decide) (by decide) (by decide) (by decide) (by decide)
  exact ⟨h.2.1, h.2.2.2.2.1⟩

/-- C2 counterexample: with `vars_lst = [a, b]` and the single candidate edge
written in the order `(b, a)` (the reverse of the order `combinations(vars_lst,
2)` produces), the constant oracle returns p-value 1/100, so no test record
has p-value > 0.05 — yet the edge's row is marked `removed = True`, because
the surviving pair `(a, b)` carries the label `a - b` while the row carries
`b - a`.  This refutes the claim that `removed = True` holds iff some record
of the edge has p-value > 0.05. -/
theorem skeleton_removed_iff_counterexample :
    (skeleton_result (fun _ _ _ => mkRat 1 100) ["a", "b"] [("b", "a")]).1 =
      [(⟨"b", "a", "b - a", [], mkRat 1 100⟩, true)]
    ∧ ∀ rb ∈ (skeleton_result (fun _ _ _ => mkRat 1 100) ["a", "b"] [("b", "a")]).1,
        ¬(rb.1.pval > mkRat 5 100) := by
  constructor
  · decide
  · decide

/-- C2 (amended): provided each candidate edge is written in the pair order
induced by the variable list (the order `combinations(vars_lst, 2)` yields)
and the edge labels of variables are collision-free, a row of the final table
is marked `removed = True` iff at least one test record with the same edge
label has p-value > 0.05.  The right-hand side only quantifies over the set
of records, so the outcome is independent of the order in which the edge's
conditioning sets were evaluated. -/
theorem skeleton_removed_iff (o : String → String → List String → ℚ)
    (vars_lst : List String) (skel : List (String × String))
    (hn : vars_lst.Nodup)
    (hord : ∀ e ∈ skel, e ∈ pairCombinations vars_lst)
    (hinj : ∀ x1 y1 x2 y2 : String, x1 ∈ vars_lst → y1 ∈ vars_lst → x2 ∈ vars_lst →
      y2 ∈ vars_lst → edgeLabel x1 y1 = edgeLabel x2 y2 → x1 = x2 ∧ y1 = y2) :
    ∀ rb ∈ (skeleton_result o vars_lst skel).1,
      (rb.2 = true ↔ ∃ rb2 ∈ (skeleton_result o vars_lst skel).1,
        rb2.1.edges = rb.1.edges ∧ rb2.1.pval > mkRat 5 100) := by
  intro rb hrb
  obtain ⟨hr1, hr2⟩ := mem_markRemoved.mp hrb
  rw [skeleton_table_eq] at hr1
  obtain ⟨e, he, hre⟩ := List.mem_flatMap.mp hr1
  obtain ⟨c, hc, hform⟩ := mem_rowsFor.mp hre
  have hedges : rb.1.edges = edgeLabel e.1 e.2 := by rw [hform]
  have hpc : e ∈ pairCombinations vars_lst := hord e he
  have hev : e.1 ∈ vars_lst ∧ e.2 ∈ vars_lst := by
    obtain ⟨a, b⟩ := e
    exact endpoints_mem_of_mem_pairCombinations hpc
  have hstep1 : (¬∃ p ∈ (skeletonLoop o vars_lst skel).2, edgeLabel p.1 p.2 = rb.1.edges) ↔
      e ∉ (skeletonLoop o vars_lst skel).2 := by
    constructor
    · intro hne hmem
      exact hne ⟨e, hmem, hedges.symm⟩
    · rintro hnm ⟨p, hp, hlab⟩
      have hppc : p ∈ pairCombinations vars_lst :=
        surviving_subset_pairCombinations o vars_lst skel hp
      have hpv : p.1 ∈ vars_lst ∧ p.2 ∈ vars_lst := by
        obtain ⟨a, b⟩ := p
        exact endpoints_mem_of_mem_pairCombinations hppc
      rw [hedges] at hlab
      obtain ⟨h1, h2⟩ := hinj p.1 p.2 e.1 e.2 hpv.1 hpv.2 hev.1 hev.2 hlab
      have : p = e := Prod.ext h1 h2
      exact hnm (this ▸ hp)
  have hstep2 : e ∉ (skeletonLoop o vars_lst skel).2 ↔
      ∃ c2 ∈ all_combinations (other_vars vars_lst e.1 e.2), o e.1 e.2 c2 > mkRat 5 100 := by
    have hms := mem_surviving o vars_lst skel hn e
    rw [skeleton_result_surv] at hms
    rw [hms]
    constructor
    · intro hno
      by_contra hbad
      exact hno ⟨hpc, fun hh => hbad hh.2⟩
    · rintro ⟨c2, hc2, hgt⟩ ⟨-, hno⟩
      exact hno ⟨he, c2, hc2, hgt⟩
  have hstep3 : (∃ c2 ∈ all_combinations (other_vars vars_lst e.1 e.2),
      o e.1 e.2 c2 > mkRat 5 100) ↔
      ∃ rb2 ∈ (skeleton_result o vars_lst skel).1,
        rb2.1.edges = rb.1.edges ∧ rb2.1.pval > mkRat 5 100 := by
    constructor
    · rintro ⟨c2, hc2, hgt⟩
      refine ⟨(⟨e.1, e.2, edgeLabel e.1 e.2, c2, o e.1 e.2 c2⟩,
        !((skeletonLoop o vars_lst skel).2.any
          (fun p => edgeLabel p.1 p.2 == edgeLabel e.1 e.2))), ?_, ?_, hgt⟩
      · rw [skeleton_result_fst]
        refine mem_markRemoved.mpr ⟨?_, rfl⟩
        rw [skeleton_table_eq]
        exact List.mem_flatMap.mpr ⟨e, he, mem_rowsFor.mpr ⟨c2, hc2, rfl⟩⟩
      · rw [hedges]
    · rintro ⟨rb2, hrb2, hlab2, hgt2⟩
      obtain ⟨hm1, -⟩ := mem_markRemoved.mp hrb2
      rw [skeleton_table_eq] at hm1
      obtain ⟨e2, he2, hre2⟩ := List.mem_flatMap.mp hm1
      obtain ⟨c2, hc2, hform2⟩ := mem_rowsFor.mp hre2
      have hlab3 : edgeLabel e2.1 e2.2 = edgeLabel e.1 e.2 := by
        rw [← hedges, ← hlab2, hform2]
      have he2v : e2.1 ∈ vars_lst ∧ e2.2 ∈ vars_lst := by
        have hpc2 := hord e2 he2
        obtain ⟨a, b⟩ := e2
        exact endpoints_mem_of_mem_pairCombinations hpc2
      obtain ⟨h1, h2⟩ := hinj e2.1 e2.2 e.1 e.2 he2v.1 he2v.2 hev.1 hev.2 hlab3
      have hee : e2 = e := Prod.ext h1 h2
      subst hee
      refine ⟨c2, hc2, ?_⟩
      rw [hform2] at hgt2
      exact hgt2
  rw [← hstep3, ← hstep2, ← hstep1]
  rw [hr2, removed_flag_true_iff]

/-- Witness for the amended C2 at `vars = [a, b]`, `skeleton = [(a, b)]`. -/
theorem skeleton_removed_iff_witness :
    (["a", "b"] : List String).Nodup
    ∧ (∀ e ∈ ([("a", "b")] : List (String × String)), e ∈ pairCombinations ["a", "b"])
    ∧ ∀ rb ∈ (skeleton_result (fun _ _ _ => mkRat 1 10) ["a", "b"] [("a", "b")]).1,
        (rb.2 = true ↔
          ∃ rb2 ∈ (skeleton_result (fun _ _ _ => mkRat 1 10) ["a", "b"] [("a", "b")]).1,
            rb2.1.edges = rb.1.edges ∧ rb2.1.pval > mkRat 5 100) := by
  refine ⟨by decide, by decide, ?_⟩
  refine skeleton_removed_iff _ _ _ (by decide) (by decide) ?_
  intro x1 y1 x2 y2 h1 h2 h3 h4 heq
  simp only [List.mem_cons, List.not_mem_nil, or_false] at h1 h2 h3 h4
  rcases h1 with rfl | rfl <;> rcases h2 with rfl | rfl <;> rcases h3 with rfl | rfl <;>
    rcases h4 with rfl | rfl <;> revert heq <;> decide

/-- C5 counterexample: with `vars_lst = [a, b]` and an empty candidate-edge
list, the returned surviving-edge list is `[(a, b)]` while the skeleton table
is empty, so no row at all — in particular no row marked `removed = False` —
matches the surviving pair.  The two collections are not equal as unordered
pair sets. -/
theorem surviving_eq_unremoved_rows_counterexample :
    ("a", "b") ∈ (skeleton_result (fun _ _ _ => mkRat 1 100) ["a", "b"] []).2.2
    ∧ (skeleton_result (fun _ _ _ => mkRat 1 100) ["a", "b"] []).1 = [] := by
  constructor
  · decide
  · decide

/-- C5 (amended): provided every pair of `combinations(vars_lst, 2)` occurs
in the candidate-edge list (and the candidate edges are in that pair order,
with collision-free labels), the surviving-edge list coincides — even as a
set of ordered pairs, hence as an unordered pair set — with the `(node_1,
node_2)` pairs of the rows marked `removed = False`. -/
theorem surviving_eq_unremoved_rows (o : String → String → List String → ℚ)
    (vars_lst : List String) (skel : List (String × String))
    (hn : vars_lst.Nodup)
    (hord : ∀ e ∈ skel, e ∈ pairCombinations vars_lst)
    (hinj : ∀ x1 y1 x2 y2 : String, x1 ∈ vars_lst → y1 ∈ vars_lst → x2 ∈ vars_lst →
      y2 ∈ vars_lst → edgeLabel x1 y1 = edgeLabel x2 y2 → x1 = x2 ∧ y1 = y2)
    (hcov : ∀ p ∈ pairCombinations vars_lst, p ∈ skel) :
    ∀ p : String × String,
      p ∈ (skeleton_result o vars_lst skel).2.2 ↔
        ∃ rb ∈ (skeleton_result o vars_lst skel).1,
          rb.2 = false ∧ rb.1.node1 = p.1 ∧ rb.1.node2 = p.2 := by
  intro p
  constructor
  · intro hp
    have hpc : p ∈ pairCombinations vars_lst :=
      surviving_subset_pairCombinations o vars_lst skel hp
    have hskel : p ∈ skel := hcov p hpc
    refine ⟨(⟨p.1, p.2, edgeLabel p.1 p.2, [], o p.1 p.2 []⟩,
      !((skeletonLoop o vars_lst skel).2.any
        (fun q => edgeLabel q.1 q.2 == edgeLabel p.1 p.2))), ?_, ?_, rfl, rfl⟩
    · rw [skeleton_result_fst]
      refine mem_markRemoved.mpr ⟨?_, rfl⟩
      rw [skeleton_table_eq]
      exact List.mem_flatMap.mpr
        ⟨p, hskel, mem_rowsFor.mpr ⟨[], nil_mem_all_combinations _, rfl⟩⟩
    · rw [skeleton_result_surv] at hp
      simp only [Bool.not_eq_false', List.any_eq_true]
      exact ⟨p, hp, by simp⟩
  · rintro ⟨rb, hrb, hfalse, hn1, hn2⟩
    obtain ⟨hm1, hm2⟩ := mem_markRemoved.mp hrb
    rw [skeleton_table_eq] at hm1
    obtain ⟨e, he, hre⟩ := List.mem_flatMap.mp hm1
    obtain ⟨c, hc, hform⟩ := mem_rowsFor.mp hre
    have hef : e.1 = p.1 := by rw [← hn1, hform]
    have hes : e.2 = p.2 := by rw [← hn2, hform]
    have hep : e = p := Prod.ext hef hes
    rw [hfalse] at hm2
    have hex : ∃ q ∈ (skeletonLoop o vars_lst skel).2, edgeLabel q.1 q.2 = rb.1.edges := by
      have := hm2.symm
      simpa using this
    obtain ⟨q, hq, hlab⟩ := hex
    have hqpc : q ∈ pairCombinations vars_lst :=
      surviving_subset_pairCombinations o vars_lst skel hq
    have hqv : q.1 ∈ vars_lst ∧ q.2 ∈ vars_lst := by
      obtain ⟨a, b⟩ := q
      exact endpoints_mem_of_mem_pairCombinations hqpc
    have hev : e.1 ∈ vars_lst ∧ e.2 ∈ vars_lst := by
      have hpc := hord e he
      obtain ⟨a, b⟩ := e
      exact endpoints_mem_of_mem_pairCombinations hpc
    have hedges : rb.1.edges = edgeLabel e.1 e.2 := by rw [hform]
    rw [hedges] at hlab
    obtain ⟨h1, h2⟩ := hinj q.1 q.2 e.1 e.2 hqv.1 hqv.2 hev.1 hev.2 hlab
    have hqe : q = e := Prod.ext h1 h2
    rw [skeleton_result_surv]
    rw [hqe, hep] at hq
    exact hq

/-- Witness for the amended C5 at `vars = [a, b]`, `skeleton = [(a, b)]`. -/
theorem surviving_eq_unremoved_rows_witness :
    (∀ p ∈ pairCombinations ["a", "b"], p ∈ ([("a", "b")] : List (String × String)))
    ∧ ∀ p : String × String,
        p ∈ (skeleton_result (fun _ _ _ => mkRat 1 100) ["a", "b"] [("a", "b")]).2.2 ↔
          ∃ rb ∈ (skeleton_result (fun _ _ _ => mkRat 1 100) ["a", "b"] [("a", "b")]).1,
            rb.2 = false ∧ rb.1.node1 = p.1 ∧ rb.1.node2 = p.2 := by
  refine ⟨by decide, ?_⟩
  refine surviving_eq_unremoved_rows _ _ _ (by decide) (by decide) ?_ (by decide)
  intro x1 y1 x2 y2 h1 h2 h3 h4 heq
  simp only [List.mem_cons, List.not_mem_nil, or_false] at h1 h2 h3 h4
  rcases h1 with rfl | rfl <;> rcases h2 with rfl | rfl <;> rcases h3 with rfl | rfl <;>
    rcases h4 with rfl | rfl <;> revert heq <;> decide

/-- C6: the surviving-edge list starts from `combinations(vars_lst, 2)` — which
contains every unordered pair of distinct variables in one of its two
orders — independently of the candidate-edge list, and a pair occurring in
neither order among the candidate edges is never tested (no row of the table
carries it, in either order) yet is returned in the surviving-edge list. -/
theorem untested_pair_survives (o : String → String → List String → ℚ)
    (vars_lst : List String) (skel : List (String × String)) (p : String × String)
    (hn : vars_lst.Nodup) (hp : p ∈ pairCombinations vars_lst)
    (h1 : p ∉ skel) (h2 : (p.2, p.1) ∉ skel) :
    (∀ a b : String, a ∈ vars_lst → b ∈ vars_lst → a ≠ b →
      (a, b) ∈ pairCombinations vars_lst ∨ (b, a) ∈ pairCombinations vars_lst)
    ∧ (∀ rb ∈ (skeleton_result o vars_lst skel).1,
        ¬((rb.1.node1, rb.1.node2) = p ∨ (rb.1.node1, rb.1.node2) = (p.2, p.1)))
    ∧ p ∈ (skeleton_result o vars_lst skel).2.2 := by
  refine ⟨fun a b ha hb hab => pair_mem_pairCombinations ha hb hab, ?_, ?_⟩
  · intro rb hrb hcontra
    obtain ⟨hm1, -⟩ := mem_markRemoved.mp hrb
    rw [skeleton_table_eq] at hm1
    obtain ⟨e, he, hre⟩ := List.mem_flatMap.mp hm1
    obtain ⟨c, hc, hform⟩ := mem_rowsFor.mp hre
    have hnode : (rb.1.node1, rb.1.node2) = e := by rw [hform]
    rcases hcontra with hcp | hcp
    · rw [hnode] at hcp
      subst hcp
      exact h1 he
    · rw [hnode] at hcp
      subst hcp
      exact h2 he
  · rw [mem_surviving o vars_lst skel hn p]
    exact ⟨hp, fun hh => h1 hh.1⟩

/-- Witness for C6 at `vars = [a, b, c]`, `skeleton = [(a, b)]`, untested
pair `(a, c)`. -/
theorem untested_pair_survives_witness :
    (("a", "c") ∈ pairCombinations ["a", "b", "c"]
      ∧ ("a", "c") ∉ ([("a", "b")] : List (String × String))
      ∧ ("c", "a") ∉ ([("a", "b")] : List (String × String)))
    ∧ ("a", "c") ∈
        (skeleton_result (fun _ _ _ => mkRat 1 10) ["a", "b", "c"] [("a", "b")]).2.2 := by
  refine ⟨⟨by decide, by decide, by decide⟩, ?_⟩
  exact (untested_pair_survives (fun _ _ _ => mkRat 1 10) ["a", "b", "c"] [("a", "b")]
    ("a", "c") (by decide) (by decide) (by decide) (by decide)).2.2

/-! ### The orienter -/

theorem emitFor_cond_iff (table : List (SRow × Bool)) (collider a b : String)
    (hdist : ∀ rb ∈ table, rb.1.node1 ≠ rb.1.node2) :
    ((table.filter (fun rb =>
        (rb.1.node1 == a || rb.1.node1 == b) && (rb.1.node2 == a || rb.1.node2 == b))).any
      (fun rb => decide (rb.1.pval > mkRat 5 100) && decide (collider ∉ rb.1.s)) = true) ↔
    ∃ rb ∈ table, ((rb.1.node1 = a ∧ rb.1.node2 = b) ∨ (rb.1.node1 = b ∧ rb.1.node2 = a))
      ∧ rb.1.pval > mkRat 5 100 ∧ collider ∉ rb.1.s := by
  rw [List.any_eq_true]
  constructor
  · rintro ⟨rb, hmem, hcond⟩
    rw [List.mem_filter] at hmem
    obtain ⟨hrbt, hf⟩ := hmem
    have hgt : rb.1.pval > mkRat 5 100 := by
      have := (Bool.and_eq_true _ _).mp hcond |>.1
      exact of_decide_eq_true this
    have hns : collider ∉ rb.1.s := by
      have := (Bool.and_eq_true _ _).mp hcond |>.2
      exact of_decide_eq_true this
    have h1 : (rb.1.node1 = a ∨ rb.1.node1 = b) ∧ (rb.1.node2 = a ∨ rb.1.node2 = b) := by
      have := (Bool.and_eq_true _ _).mp hf
      constructor
      · rcases (Bool.or_eq_true _ _).mp this.1 with h | h
        · exact Or.inl (by simpa using h)
        · exact Or.inr (by simpa using h)
      · rcases (Bool.or_eq_true _ _).mp this.2 with h | h
        · exact Or.inl (by simpa using h)
        · exact Or.inr (by simpa using h)
    refine ⟨rb, hrbt, ?_, hgt, hns⟩
    have hne := hdist rb hrbt
    rcases h1.1 with ha1 | hb1 <;> rcases h1.2 with ha2 | hb2
    · exact absurd (ha1.trans ha2.symm) hne
    · exact Or.inl ⟨ha1, hb2⟩
    · exact Or.inr ⟨hb1, ha2⟩
    · exact absurd (hb1.trans hb2.symm) hne
  · rintro ⟨rb, hrbt, hor, hgt, hns⟩
    refine ⟨rb, ?_, ?_⟩
    · rw [List.mem_filter]
      refine ⟨hrbt, ?_⟩
      rcases hor with ⟨h1, h2⟩ | ⟨h1, h2⟩ <;> simp [h1, h2]
    · rw [Bool.and_eq_true]
      exact ⟨decide_eq_true hgt, decide_eq_true hns⟩

/-- C3: for a node pair `(a, b)` and a stored skeleton table whose rows all
have distinct `node_1`, `node_2` (as any table built from proper candidate
edges does), `causal_direct_collider` emits `(a -> collider), (b -> collider)`
when some record on `\x7ba, b\x7d` (in either order) has p-value > 0.05 and a
conditioning set omitting the collider, and otherwise emits
`(collider -> a), (collider -> b)`. -/
theorem collider_orientation (table : List (SRow × Bool)) (nodes : List (String × String))
    (collider a b : String)
    (hdist : ∀ rb ∈ table, rb.1.node1 ≠ rb.1.node2)
    (hmem : (a, b) ∈ nodes) :
    ((∃ rb ∈ table, ((rb.1.node1 = a ∧ rb.1.node2 = b) ∨ (rb.1.node1 = b ∧ rb.1.node2 = a))
        ∧ rb.1.pval > mkRat 5 100 ∧ collider ∉ rb.1.s) →
      emitFor table collider (a, b) = [(a, collider), (b, collider)])
    ∧ ((¬∃ rb ∈ table, ((rb.1.node1 = a ∧ rb.1.node2 = b) ∨ (rb.1.node1 = b ∧ rb.1.node2 = a))
        ∧ rb.1.pval > mkRat 5 100 ∧ collider ∉ rb.1.s) →
      ∀ x : String × String,
        x ∈ emitFor table collider (a, b) ↔ x = (collider, a) ∨ x = (collider, b)) := by
  constructor
  · intro hcl
    rw [emitFor]
    rw [if_pos ((emitFor_cond_iff table collider a b hdist).mpr hcl)]
  · intro hcl
    intro x
    rw [emitFor]
    rw [if_neg (fun hc => hcl ((emitFor_cond_iff table collider a b hdist).mp hc))]
    simp only [List.mem_cons, List.not_mem_nil, or_false]
    tauto

/-- Witness for C3: a single-row table on the pair `(a, b)` with p-value 1/10
and empty conditioning set triggers the collider branch. -/
theorem collider_orientation_witness :
    (∀ rb ∈ ([(⟨"a", "b", "a - b", [], mkRat 1 10⟩, true)] : List (SRow × Bool)),
      rb.1.node1 ≠ rb.1.node2)
    ∧ (("a", "b") ∈ ([("a", "b")] : List (String × String)))
    ∧ ((∃ rb ∈ ([(⟨"a", "b", "a - b", [], mkRat 1 10⟩, true)] : List (SRow × Bool)),
        ((rb.1.node1 = "a" ∧ rb.1.node2 = "b") ∨ (rb.1.node1 = "b" ∧ rb.1.node2 = "a"))
          ∧ rb.1.pval > mkRat 5 100 ∧ "c" ∉ rb.1.s) →
      emitFor [(⟨"a", "b", "a - b", [], mkRat 1 10⟩, true)] "c" ("a", "b") =
        [("a", "c"), ("b", "c")]) := by
  refine ⟨by decide, by decide, ?_⟩
  exact (collider_orientation [(⟨"a", "b", "a - b", [], mkRat 1 10⟩, true)] [("a", "b")]
    "c" "a" "b" (by decide) (by decide)).1

theorem mem_emitFor_cases {table : List (SRow × Bool)} {collider : String}
    {nd x : String × String} (hx : x ∈ emitFor table collider nd) :
    x = (nd.1, collider) ∨ x = (nd.2, collider) ∨ x = (collider, nd.1) ∨ x = (collider, nd.2) := by
  rw [emitFor] at hx
  split at hx
  · rcases List.mem_cons.mp hx with h | h
    · exact Or.inl h
    · exact Or.inr (Or.inl (List.mem_singleton.mp h))
  · rcases List.mem_cons.mp hx with h | h
    · exact Or.inr (Or.inr (Or.inl h))
    · rcases List.mem_cons.mp h with h2 | h2
      · exact Or.inr (Or.inr (Or.inl h2))
      · exact Or.inr (Or.inr (Or.inr (List.mem_singleton.mp h2)))

/-- C9: every row of the causal table returned by `causal_direct_collider` is
incident to the collider — its `from` or its `to` field is the collider; no
edge between two non-collider variables is ever produced. -/
theorem orientation_incident_collider (table : List (SRow × Bool))
    (nodes : List (String × String)) (collider : String) :
    ∀ r ∈ causal_direct_collider table nodes collider,
      r.frm = collider ∨ r.tgt = collider := by
  intro r hr
  rw [causal_direct_collider] at hr
  obtain ⟨e, he, hre⟩ := List.mem_map.mp hr
  rcases conflictPassAux_subset collider _ [] e he with h | h
  · simp at h
  · have hmem := ((mem_dedupKeepFirst [] _ e).mp h).1
    obtain ⟨nd, -, hx⟩ := List.mem_flatMap.mp hmem
    rcases mem_emitFor_cases hx with rfl | rfl | rfl | rfl
    · right
      rw [← hre]
    · right
      rw [← hre]
    · left
      rw [← hre]
    · left
      rw [← hre]

/-- Witness for C9 at a concrete call and a concrete returned row. -/
theorem orientation_incident_collider_witness :
    (⟨"q", "->", "a"⟩ : CRow) ∈ causal_direct_collider [] [("a", "b")] "q"
    ∧ ((⟨"q", "->", "a"⟩ : CRow).frm = "q" ∨ (⟨"q", "->", "a"⟩ : CRow).tgt = "q") :=
  ⟨by decide, orientation_incident_collider [] [("a", "b")] "q" ⟨"q", "->", "a"⟩ (by decide)⟩

/-- C4: a deduplicated emitted edge `(collider -> target)` whose target also
occurs as a `from` endpoint in the deduplicated accumulated table is dropped
by the conflict-resolution pass: no row of the final causal table carries
that `(from, to)` pair, so edges pointing into a collider take precedence
over the conflicting outward edge. -/
theorem collider_conflict_drop (table : List (SRow × Bool))
    (nodes : List (String × String)) (collider : String) (e : String × String)
    (he : e ∈ dedupKeepFirst [] (nodes.flatMap (emitFor table collider)))
    (hfrm : e.1 = collider)
    (hto : e.2 ∈ (dedupKeepFirst [] (nodes.flatMap (emitFor table collider))).map Prod.fst) :
    ∀ r ∈ causal_direct_collider table nodes collider, ¬(r.frm = e.1 ∧ r.tgt = e.2) := by
  rintro r hr ⟨hf, ht⟩
  rw [causal_direct_collider] at hr
  obtain ⟨e2, he2, hre⟩ := List.mem_map.mp hr
  have h1 : e2.1 = e.1 := by rw [← hf, ← hre]
  have h2 : e2.2 = e.2 := by rw [← ht, ← hre]
  have hee : e2 = e := Prod.ext h1 h2
  subst hee
  have hnd : (([] : List (String × String)) ++
      dedupKeepFirst [] (nodes.flatMap (emitFor table collider))).Nodup := by
    simpa using nodup_dedupKeepFirst [] (nodes.flatMap (emitFor table collider))
  exact conflictPassAux_drop collider _ [] e2 he (by simp) hnd hfrm (by simpa using hto) he2

/-- Witness for C4: the table makes pair `(t, u)` fire the collider branch
(emitting `t -> C`, `u -> C`) and pair `(t, x)` the outward branch (emitting
`C -> t`, `C -> x`); the conflicting `C -> t` is dropped from the result. -/
theorem collider_conflict_drop_witness :
    (("C", "t") ∈ dedupKeepFirst []
        (([("t", "u"), ("t", "x")] : List (String × String)).flatMap
          (emitFor [(⟨"t", "u", "t - u", [], mkRat 1 10⟩, true)] "C"))
      ∧ ("t" : String) ∈ (dedupKeepFirst []
        (([("t", "u"), ("t", "x")] : List (String × String)).flatMap
          (emitFor [(⟨"t", "u", "t - u", [], mkRat 1 10⟩, true)] "C"))).map Prod.fst)
    ∧ ∀ r ∈ causal_direct_collider [(⟨"t", "u", "t - u", [], mkRat 1 10⟩, true)]
        [("t", "u"), ("t", "x")] "C", ¬(r.frm = "C" ∧ r.tgt = "t") := by
  refine ⟨⟨by decide, by decide⟩, ?_⟩
  exact collider_conflict_drop [(⟨"t", "u", "t - u", [], mkRat 1 10⟩, true)]
    [("t", "u"), ("t", "x")] "C" ("C", "t") (by decide) rfl (by decide)

/-- C8 counterexample: `causal_direct_collider` performs no validation of the
`collider` argument.  Called with collider `q`, which is not among the
variables of the node pair `(a, b)`, it does not fail — it returns the
orientation records `q -> a` and `q -> b`, refuting the claim that the call
fails fast before any orientation records are produced. -/
theorem unknown_collider_counterexample :
    (("q" : String) ≠ "a" ∧ ("q" : String) ≠ "b")
    ∧ causal_direct_collider [] [("a", "b")] "q" =
        [⟨"q", "->", "a"⟩, ⟨"q", "->", "b"⟩] := by
  constructor
  · constructor
    · decide
    · decide
  · decide

/-- C8 (amended): the orienter never fails on an unknown collider; with a
collider foreign to every supplied node pair and a nonempty pair list, the
call completes normally and returns a nonempty table of orientation records
mentioning the unknown collider. -/
theorem unknown_collider_no_failure (table : List (SRow × Bool))
    (nodes : List (String × String)) (collider : String)
    (hc : ∀ p ∈ nodes, collider ≠ p.1 ∧ collider ≠ p.2)
    (hne : nodes ≠ []) :
    causal_direct_collider table nodes collider ≠ [] := by
  obtain ⟨p, rest, rfl⟩ := List.exists_cons_of_ne_nil hne
  have hflat : ∃ z zs, (p :: rest).flatMap (emitFor table collider) = z :: zs := by
    rw [List.flatMap_cons]
    rw [emitFor]
    split
    · exact ⟨_, _, rfl⟩
    · exact ⟨_, _, rfl⟩
  obtain ⟨z, zs, hzs⟩ := hflat
  have hDne : dedupKeepFirst [] ((p :: rest).flatMap (emitFor table collider)) ≠ [] := by
    rw [hzs, dedupKeepFirst, if_neg (List.not_mem_nil z)]
    exact List.cons_ne_nil z _
  rw [causal_direct_collider]
  intro hempty
  rw [List.map_eq_nil_iff] at hempty
  by_cases hex : ∃ x ∈ dedupKeepFirst [] ((p :: rest).flatMap (emitFor table collider)),
      x.1 ≠ collider
  · obtain ⟨x, hxD, hxne⟩ := hex
    have hxin := conflictPassAux_keep_frm_ne collider _ [] x hxne (Or.inr hxD)
    rw [hempty] at hxin
    exact List.not_mem_nil x hxin
  · push_neg at hex
    have hall : ∀ x ∈ dedupKeepFirst [] ((p :: rest).flatMap (emitFor table collider)),
        x.1 = collider ∧ x.2 ≠ collider := by
      intro x hxD
      refine ⟨hex x hxD, ?_⟩
      have hmem := ((mem_dedupKeepFirst [] _ x).mp hxD).1
      obtain ⟨nd, hnd, hx⟩ := List.mem_flatMap.mp hmem
      obtain ⟨hc1, hc2⟩ := hc nd hnd
      rcases mem_emitFor_cases hx with rfl | rfl | rfl | rfl
      · exact absurd (hex _ hxD) hc1.symm
      · exact absurd (hex _ hxD) hc2.symm
      · exact fun h => hc1 h.symm
      · exact fun h => hc2 h.symm
    have := conflictPassAux_all_inward collider _ [] (by simp) hall
    rw [hempty] at this
    exact hDne this.symm

/-- Witness for the amended C8. -/
theorem unknown_collider_no_failure_witness :
    (∀ p ∈ ([("a", "b")] : List (String × String)), ("q" : String) ≠ p.1 ∧ ("q" : String) ≠ p.2)
    ∧ causal_direct_collider [] [("a", "b")] "q" ≠ [] := by
  refine ⟨by decide, ?_⟩
  exact unknown_collider_no_failure [] [("a", "b")] "q" (by decide) (by decide)

/-- C7 counterexample: `skeleton_result` performs no upfront validation.
With dataset columns `[a, b, c]` and candidate edges `[(a, b), (a, d)]`, the
reference to the unknown variable `d` only surfaces when the oracle is asked
about the edge `(a, d)`: the call does fail (the completion flag is `false`),
but both conditional-independence tests of the earlier edge `(a, b)` were
evaluated first — refuting the claim that the failure happens at the call
boundary before any test is evaluated. -/
theorem invalid_variable_counterexample :
    (∃ e ∈ ([("a", "b"), ("a", "d")] : List (String × String)),
      ¬(e.1 ∈ (["a", "b", "c"] : List String) ∧ e.2 ∈ (["a", "b", "c"] : List String)))
    ∧ (evalTrace (colOracle (fun _ _ _ => mkRat 1 10) ["a", "b", "c"]) ["a", "b", "c"]
        [("a", "b"), ("a", "d")]).2 = false
    ∧ (evalTrace (colOracle (fun _ _ _ => mkRat 1 10) ["a", "b", "c"]) ["a", "b", "c"]
        [("a", "b"), ("a", "d")]).1 =
      [("a", "b", ([] : List String)), ("a", "b", ["c"])] := by
  refine ⟨by decide, by decide, by decide⟩

theorem evalTraceAux_append_of_success (o : String → String → List String → Option ℚ) :
    ∀ (qs : List (String × String × List String)) (acc tail : List (String × String × List String)),
      (∀ q ∈ qs, ∃ v, o q.1 q.2.1 q.2.2 = some v) →
      evalTraceAux o acc (qs ++ tail) = evalTraceAux o (acc ++ qs) tail
  | [], acc, tail, _ => by simp
  | q :: qs, acc, tail, h => by
    rw [List.cons_append, evalTraceAux]
    obtain ⟨v, hv⟩ := h q (List.mem_cons_self q qs)
    rw [hv]
    rw [evalTraceAux_append_of_success o qs (acc ++ [q]) tail
      (fun q2 hq2 => h q2 (List.mem_cons_of_mem q hq2))]
    simp

/-- C7 (amended): `skeleton_result` does not validate its candidate edges at
the call boundary.  When the candidate list is `good ++ bad :: rest` with
every edge of `good` referencing dataset columns and `bad` referencing an
unknown variable, the call fails — but only at `bad`'s first oracle query:
every test of the preceding valid edges is evaluated first (the evaluated
trace is exactly the full query list of `good`), and the failure aborts the
call, so no skeleton table is produced. -/
theorem invalid_variable_lazy_failure (f : String → String → List String → ℚ)
    (vars_lst : List String) (good : List (String × String)) (bad : String × String)
    (rest : List (String × String))
    (hgood : ∀ e ∈ good, e.1 ∈ vars_lst ∧ e.2 ∈ vars_lst)
    (hbad : ¬(bad.1 ∈ vars_lst ∧ bad.2 ∈ vars_lst)) :
    evalTrace (colOracle f vars_lst) vars_lst (good ++ bad :: rest) =
      (good.flatMap (queriesFor vars_lst), false) := by
  rw [evalTrace, List.flatMap_append]
  rw [evalTraceAux_append_of_success (colOracle f vars_lst) _ [] _ ?_]
  · rw [List.flatMap_cons]
    have hq : ∃ t, queriesFor vars_lst bad = (bad.1, bad.2, ([] : List String)) :: t := by
      rw [queriesFor]
      obtain ⟨t, ht⟩ := all_combinations_eq_cons (other_vars vars_lst bad.1 bad.2)
      rw [ht]
      exact ⟨_, rfl⟩
    obtain ⟨t, ht⟩ := hq
    rw [ht, List.cons_append, evalTraceAux]
    rw [colOracle, if_neg hbad]
    simp
  · intro q hq
    obtain ⟨e, he, hqe⟩ := List.mem_flatMap.mp hq
    rw [queriesFor] at hqe
    obtain ⟨c, -, rfl⟩ := List.mem_map.mp hqe
    refine ⟨f e.1 e.2 c, ?_⟩
    rw [colOracle, if_pos (hgood e he)]

/-- Witness for the amended C7. -/
theorem invalid_variable_lazy_failure_witness :
    ((∀ e ∈ ([("a", "b")] : List (String × String)),
        e.1 ∈ (["a", "b", "c"] : List String) ∧ e.2 ∈ (["a", "b", "c"] : List String))
      ∧ ¬((("a", "d") : String × String).1 ∈ (["a", "b", "c"] : List String)
            ∧ (("a", "d") : String × String).2 ∈ (["a", "b", "c"] : List String)))
    ∧ evalTrace (colOracle (fun _ _ _ => mkRat 1 10) ["a", "b", "c"]) ["a", "b", "c"]
        ([("a", "b")] ++ ("a", "d") :: []) =
      (([("a", "b")] : List (String × String)).flatMap (queriesFor ["a", "b", "c"]), false) := by
  refine ⟨⟨by decide, by decide⟩, ?_⟩
  exact invalid_variable_lazy_failure (fun _ _ _ => mkRat 1 10) ["a", "b", "c"]
    [("a", "b")] ("a", "d") [] (by decide) (by decide)

/-- C10: the orienter takes no skeleton-table argument — it reads the table
stored on the object.  On a freshly constructed object, on which
`skeleton_result` has never run, the `skeleton_table` attribute is absent and
the call fails before producing any output; after `skeleton_result` has run,
the orienter consumes exactly the table that call returned. -/
theorem orienter_uses_stored_table (o : String → String → List String → ℚ)
    (vars_lst : List String) (skel : List (String × String))
    (nodes : List (String × String)) (collider : String) :
    (CausalDiscovery.make o vars_lst skel).runCollider nodes collider = none
    ∧ ∀ c : CausalDiscovery,
        (c.runSkeleton.1).runCollider nodes collider =
          some (causal_direct_collider c.runSkeleton.2.1 nodes collider) := by
  constructor
  · rfl
  · intro c
    rfl
